import Mathlib

/-!
Verification of the retrieval-and-ranking core of the Aurora member Q&A
service (`retriever.py`), shallowly embedded in Lean 4.

Strings are modelled as `List Char` (`Str`).  The external services the
code calls (sentence-transformers embedding model, the Chroma vector
store, `rapidfuzz`, `dateutil`, Python's `re` and `unicodedata`) are
modelled from their documented behaviour at the granularity the code
relies on; each model carries a comment stating what it models.
-/

set_option maxRecDepth 10000

abbrev Str := List Char

/-- The character class kept by the filtering step
`re.sub(r"[^a-zA-Z0-9+ ']+", " ", text)` of `normalize_text`
(`retriever.py` line 37): ASCII letters, digits, `+`, space, apostrophe. -/
def keptChar (c : Char) : Bool :=
  (97 ≤ c.toNat && c.toNat ≤ 122) || (65 ≤ c.toNat && c.toNat ≤ 90) ||
  (48 ≤ c.toNat && c.toNat ≤ 57) || c.toNat == 43 || c.toNat == 32 || c.toNat == 39

/-- Python `text.replace("’", "'").replace("‘", "'").replace("`", "'")`
(`retriever.py` line 36).  Each needle is a single character, so the
substring replacement is a character map.  `Char.ofNat 96` is the
backquote character. -/
def replaceQuotes (s : Str) : Str :=
  s.map fun c =>
    if c.toNat == 8217 || c.toNat == 8216 || c.toNat == 96 then Char.ofNat 39 else c

/-- Model of `re.sub(r"[^a-zA-Z0-9+ ']+", " ", text)`: every maximal run
of characters outside the kept class collapses to a single space.  The
boolean argument records whether the previous character was inside such
a run. -/
def collapseAux : Bool → Str → Str
  | _, [] => []
  | inRun, c :: cs =>
    if keptChar c then c :: collapseAux false cs
    else if inRun then collapseAux true cs
    else ' ' :: collapseAux true cs

def collapseRuns (s : Str) : Str := collapseAux false s

/-- ASCII lowercasing.  In `normalize_text` the `.lower()` call runs on
the output of the filtering step, which only contains characters from
the kept class, so the ASCII map is exact there. -/
def lowerChar (c : Char) : Char :=
  if 65 ≤ c.toNat && c.toNat ≤ 90 then Char.ofNat (c.toNat + 32) else c

def lowerStr (s : Str) : Str := s.map lowerChar

/-- Python `str.strip()`.  In `normalize_text` its input only contains
spaces as whitespace, so stripping the space character is exact. -/
def stripSpaces (s : Str) : Str :=
  ((s.dropWhile (· == ' ')).reverse.dropWhile (· == ' ')).reverse

/-- The function `normalize_text` (`retriever.py` lines 33-38).  The
`unicodedata.normalize("NFKD", ·)` call is an external library function
and is passed in as the parameter `nfkd`; the real NFKD transform is
the identity on strings made of the kept ASCII characters, which is the
only property the theorems below assume about it. -/
def normalize_text (nfkd : Str → Str) (t : Str) : Str :=
  stripSpaces (lowerStr (collapseRuns (replaceQuotes (nfkd t))))

/-- A character `normalize_text` can output: kept, not uppercase. -/
def normalOutChar (c : Char) : Bool := keptChar c && !(65 ≤ c.toNat && c.toNat ≤ 90)


/-- Python `str.split()` with no argument: split on runs of whitespace,
no empty fields.  At its use sites the input comes out of
`normalize_text`, whose only whitespace character is the space. -/
def splitWsAux : Str → Str → List Str
  | acc, [] => if acc.isEmpty then [] else [acc.reverse]
  | acc, c :: cs =>
    if c == ' ' then
      if acc.isEmpty then splitWsAux [] cs else acc.reverse :: splitWsAux [] cs
    else splitWsAux (c :: acc) cs

def splitWs (s : Str) : List Str := splitWsAux [] s

/-- Tests whether `needle` is a leading segment of `hay`. -/
def leadsStr : Str → Str → Bool
  | [], _ => true
  | _ :: _, [] => false
  | a :: as, b :: bs => a == b && leadsStr as bs

/-- Python's substring test `needle in hay`.  The empty needle is a
substring of everything, as in Python. -/
def containsSub (needle : Str) : Str → Bool
  | [] => needle.isEmpty
  | c :: t => leadsStr needle (c :: t) || containsSub needle t


/-!
Model of the regular-expression call
`re.search(rf"\b{part}\b", norm_q)` from `detect_user_name`
(`retriever.py` line 121).  `part` comes from splitting a
`normalize_text` output, so its characters lie in `[a-z0-9+']`; of
those, only `+` is a regex metacharacter (one-or-more quantifier).
CPython rejects the pattern when a `+` has nothing to repeat (a `+` at
the start of `part`) or quantifies a quantifier (a run of three or more
`+`); CPython ≥ 3.11 parses a double `+` as a possessive quantifier.
`re.error` escapes `detect_user_name` uncaught, which the embedding
renders as `Except.error`.
-/

inductive ReTok where
  | one (c : Char)
  | star1 (c : Char)      -- `c+` : one or more, backtracking
  | star1poss (c : Char)  -- `c++`: one or more, possessive
deriving DecidableEq

/-- Compile `part` (no spaces, characters from the `normalize_text`
class) into tokens, or fail like `re.compile` does: a leading `+`
("nothing to repeat") and a third consecutive `+` ("multiple repeat")
are errors; codepoint 43 is `+`. -/
def lexPat : Str → Option (List ReTok)
  | [] => some []
  | c :: rest =>
    if c.toNat == 43 then none
    else
      match rest with
      | p1 :: p2 :: rest2 =>
        if p1.toNat == 43 && p2.toNat == 43 then (lexPat rest2).map (ReTok.star1poss c :: ·)
        else if p1.toNat == 43 then (lexPat (p2 :: rest2)).map (ReTok.star1 c :: ·)
        else (lexPat (p1 :: p2 :: rest2)).map (ReTok.one c :: ·)
      | [p1] =>
        if p1.toNat == 43 then (lexPat ([] : Str)).map (ReTok.star1 c :: ·)
        else (lexPat [p1]).map (ReTok.one c :: ·)
      | [] => some [ReTok.one c]

/-- A word character for `\b`, for the ASCII range that
`normalize_text` output can contain (`[a-z0-9']`, of which `'` is not a
word character, plus `+`, also not one). -/
def isWordChar (c : Char) : Bool :=
  (97 ≤ c.toNat && c.toNat ≤ 122) || (65 ≤ c.toNat && c.toNat ≤ 90) ||
  (48 ≤ c.toNat && c.toNat ≤ 57) || c.toNat == 95

def charAt (q : Str) (i : Nat) : Char := q.getD i (Char.ofNat 0)

def isWordAt (q : Str) (i : Nat) : Bool := i < q.length && isWordChar (charAt q i)

/-- Whether `\b` holds between positions `i-1` and `i` (out-of-range
counts as non-word). -/
def boundaryAt (q : Str) (i : Nat) : Bool :=
  (if i = 0 then false else isWordAt q (i - 1)) != isWordAt q i

/-- Length of the run of copies of `c` in `q` starting at `i`. -/
def runLen (q : Str) (c : Char) (i : Nat) : Nat :=
  ((q.drop i).takeWhile (· == c)).length

/-- All positions where a match of the token list starting at `i` can
end; unions over the choices a backtracking `+` has. -/
def matchToks (q : Str) : List ReTok → Nat → List Nat
  | [], i => [i]
  | ReTok.one c :: ts, i =>
    if i < q.length && charAt q i == c then matchToks q ts (i + 1) else []
  | ReTok.star1 c :: ts, i =>
    let r := runLen q c i
    (List.range r).flatMap fun k => matchToks q ts (i + k + 1)
  | ReTok.star1poss c :: ts, i =>
    let r := runLen q c i
    if r = 0 then [] else matchToks q ts (i + r)

/-- Model of `re.search(rf"\b{part}\b", q)` viewed as a truth value:
`.error` when the pattern does not compile, otherwise whether any
position of `q` starts a match. -/
def reSearchWB (part q : Str) : Except Unit Bool :=
  match lexPat part with
  | none => .error ()
  | some toks =>
    .ok ((List.range (q.length + 1)).any fun i =>
      boundaryAt q i && (matchToks q toks i).any fun j => boundaryAt q j)

deriving instance DecidableEq for Except


/-!
Model of `rapidfuzz.fuzz`.  `fuzz.ratio` is the normalized InDel
similarity `100 * (1 - dist/(|a|+|b|))`, where the InDel distance is
`|a| + |b| - 2 * lcs(a, b)`; so `ratio a b = 200 * lcs(a, b) / (|a|+|b|)`,
with the two-empty-strings case defined as 100.  `fuzz.partial_ratio`
searches for the optimal alignment of the shorter string inside the
longer one and returns the `ratio` of that alignment, i.e. the maximum
of `ratio shorter t` over the contiguous substrings `t` of the longer
string.  Scores are rationals in `[0, 100]` (rapidfuzz returns floats).
-/

/-- One row update of the standard longest-common-subsequence dynamic
program: `bs`/`ps` walk the second string and the previous row,
`pdiag` is the entry above-left, `nleft` the entry just written. -/
def lcsStepAux (x : Char) : Str → List Nat → Nat → Nat → List Nat
  | [], _, _, _ => []
  | _ :: _, [], _, _ => []
  | bj :: bs, pj :: ps, pdiag, nleft =>
    let nj := if bj == x then pdiag + 1 else max pj nleft
    nj :: lcsStepAux x bs ps pj nj

def lcsStep (b : Str) (row : List Nat) (x : Char) : List Nat :=
  match row with
  | [] => []
  | p0 :: ps => 0 :: lcsStepAux x b ps p0 0

/-- Length of the longest common subsequence of `a` and `b`. -/
def lcs (a b : Str) : Nat :=
  (a.foldl (lcsStep b) (List.replicate (b.length + 1) 0)).getLastD 0

/-- Scores are exact rationals `num/den` kept unreduced (rapidfuzz
returns floats; all the code does with scores is compare them, and the
comparisons below are exact value comparisons by cross-multiplication).
Every score built below has a positive denominator. -/
structure Score where
  num : Nat
  den : Nat
deriving DecidableEq

def scoreLt (a b : Score) : Bool := a.num * b.den < b.num * a.den

def scoreLe (a b : Score) : Bool := a.num * b.den ≤ b.num * a.den

def scoreEqv (a b : Score) : Bool := a.num * b.den == b.num * a.den

/-- Model of `rapidfuzz.fuzz.ratio`: `200 * lcs(a,b) / (|a|+|b|)`, with the
two-empty-strings case defined as 100. -/
def simRatio (a b : Str) : Score :=
  if a.length + b.length = 0 then ⟨100, 1⟩
  else ⟨200 * lcs a b, a.length + b.length⟩

/-- All contiguous substrings of `s` (with repetition; used only under
`max`). -/
def contigSubs (s : Str) : List Str :=
  (List.range (s.length + 1)).flatMap fun i =>
    (List.range (s.length + 1 - i)).map fun n => (s.drop i).take n

def scoreMax (a b : Score) : Score := if scoreLt a b then b else a

/-- Model of `rapidfuzz.fuzz.partial_ratio`: best `ratio` of the shorter string
against a contiguous substring of the longer string. -/
def alignSim (a b : Str) : Score :=
  let p := if a.length ≤ b.length then (a, b) else (b, a)
  ((contigSubs p.2).map fun t => simRatio p.1 t).foldr scoreMax ⟨0, 1⟩


/-!
`detect_user_name` (`retriever.py` lines 102-137).  The literal tier
walks the names in order; for each it first tests the raw
case-insensitive substring (`u.lower() in question.lower()`, modelled
with the ASCII lowercase map) and then each whitespace-separated part
of the normalized name as a `\b`-delimited regex, returning on the
first hit; a `re.error` raised by an invalid interpolated pattern
escapes the function (`Except.error`).  If the literal tier found
nothing, the fuzzy tier scores every name by
`fuzz.partial_ratio(normalize_text(u), norm_q)`, keeps a strictly
improving running best, and returns the best name when its score
reaches the threshold (70 in the source); `thr` keeps the threshold as
a parameter (the source value is `⟨70, 1⟩`).
-/

def firstPartHit (parts : List Str) (nq : Str) : Except Unit Bool :=
  match parts with
  | [] => .ok false
  | p :: ps =>
    match reSearchWB p nq with
    | .error e => .error e
    | .ok true => .ok true
    | .ok false => firstPartHit ps nq

def detectTier1 (nfkd : Str → Str) (q : Str) : List Str → Except Unit (Option Str)
  | [] => .ok none
  | u :: rest =>
    if containsSub (lowerStr u) (lowerStr q) then .ok (some u)
    else
      match firstPartHit (splitWs (normalize_text nfkd u)) (normalize_text nfkd q) with
      | .error e => .error e
      | .ok true => .ok (some u)
      | .ok false => detectTier1 nfkd q rest

/-- The accumulator loop of the fuzzy tier: fold the
`best_score`/`best_match` pair over the names, updating on strict
improvement. -/
def fuzzyFold (f : Str → Score) (init : Score × Option Str) (names : List Str) :
    Score × Option Str :=
  names.foldl (fun acc u => if scoreLt acc.1 (f u) then (f u, some u) else acc) init

/-- The fuzzy tier: run the accumulator loop from `(0, None)` scoring
each name by `fuzz.partial_ratio(normalize_text(u), nq)`, then return
the best name when its score reaches the threshold. -/
def detectFuzzy (nfkd : Str → Str) (names : List Str) (nq : Str) (thr : Score) : Option Str :=
  let best := fuzzyFold (fun u => alignSim (normalize_text nfkd u) nq) (⟨0, 1⟩, none) names
  if scoreLe thr best.1 then best.2 else none

def detect_user_name (nfkd : Str → Str) (question : Str) (names : List Str) (thr : Score) :
    Except Unit (Option Str) :=
  match detectTier1 nfkd question names with
  | .error e => .error e
  | .ok (some u) => .ok (some u)
  | .ok none => .ok (detectFuzzy nfkd names (normalize_text nfkd question) thr)

/-!
Timestamps.  `parse_timestamp` (`retriever.py` lines 41-51) turns the
raw metadata value into a `datetime`: falsy input gives the sentinel
`datetime.min.replace(tzinfo=timezone.utc)`; a `datetime` is passed
through (UTC attached when naive); anything else is stringified, every
`"Z"` is replaced by `"+00:00"`, and the result is handed to
`dateutil.parser.parse`, any exception yielding the sentinel.
-/

/-- Python `datetime`: calendar fields plus an optional UTC offset in
minutes (`None` = naive).  Microseconds are not modelled (none of the
timestamp strings the model parses carry them). -/
structure PyDateTime where
  year : Nat
  month : Nat
  day : Nat
  hour : Nat
  minute : Nat
  second : Nat
  tzOffMin : Option Int
deriving DecidableEq

/-- Python `datetime.min`: year 1, January 1, midnight, naive. -/
def pyDatetimeMin : PyDateTime := ⟨1, 1, 1, 0, 0, 0, none⟩

/-- The sentinel `datetime.min.replace(tzinfo=timezone.utc)`. -/
def dtSentinel : PyDateTime := ⟨1, 1, 1, 0, 0, 0, some 0⟩

/-- Days from 1970-01-01 of a proleptic-Gregorian civil date (standard
`days_from_civil` algorithm; all intermediate quantities are
nonnegative for the years `≥ 1` this model feeds it). -/
def daysFromCivil (y m d : Nat) : Int :=
  let y' := if m ≤ 2 then y - 1 else y
  let era := y' / 400
  let yoe := y' - era * 400
  let mp := if 2 < m then m - 3 else m + 9
  let doy := (153 * mp + 2) / 5 + d - 1
  let doe := yoe * 365 + yoe / 4 - yoe / 100 + doy
  (era * 146097 + doe : Int) - 719468

/-- The value of `dt.timestamp()` in seconds, used (negated) as the
primary sort key (`retriever.py` line 249).  For an aware datetime this
is POSIX seconds; for a naive one CPython interprets the fields in the
local timezone, which this model takes to be UTC. -/
def tsKeySec (t : PyDateTime) : Int :=
  daysFromCivil t.year t.month t.day * 86400 +
    t.hour * 3600 + t.minute * 60 + t.second -
    60 * t.tzOffMin.getD 0


/-- Read exactly `n` decimal digits, most significant first. -/
def readDigits : Nat → Str → Option (Nat × Str)
  | 0, s => some (0, s)
  | _ + 1, [] => none
  | n + 1, c :: s =>
    if 48 ≤ c.toNat && c.toNat ≤ 57 then
      (readDigits n s).bind fun (v, r) => some ((c.toNat - 48) * 10 ^ n + v, r)
    else none


/-- Field ranges `dateutil` accepts for this grammar (day-in-month
granularity is approximated by `≤ 31`). -/
def validDt (t : PyDateTime) : Bool :=
  1 ≤ t.year && t.year ≤ 9999 && 1 ≤ t.month && t.month ≤ 12 &&
  1 ≤ t.day && t.day ≤ 31 && t.hour < 24 && t.minute < 60 && t.second < 60 &&
  (match t.tzOffMin with
   | none => true
   | some off => -1439 ≤ off && off ≤ 1439)

/-- Optional trailing UTC offset `±HH:MM`; anything else fails. -/
def parseOffTail (s : Str) : Option (Option Int) :=
  match s with
  | [] => some none
  | sgn :: r0 =>
    if sgn == '+' || sgn == '-' then
      (readDigits 2 r0).bind fun (hh, r1) =>
        match r1 with
        | ':' :: r2 =>
          (readDigits 2 r2).bind fun (mm, r3) =>
            if r3.isEmpty && hh < 24 && mm < 60 then
              some (some (if sgn == '-' then -((hh : Int) * 60 + mm) else (hh : Int) * 60 + mm))
            else none
        | _ => none
    else none

/-- Optional `T`- or space-separated time of day `HH:MM:SS`, then an
optional offset. -/
def parseTimeTail (s : Str) : Option (Nat × Nat × Nat × Option Int) :=
  match s with
  | [] => some (0, 0, 0, none)
  | sep :: r0 =>
    if sep == 'T' || sep == ' ' then
      (readDigits 2 r0).bind fun (hh, r1) =>
        match r1 with
        | ':' :: r2 =>
          (readDigits 2 r2).bind fun (mi, r3) =>
            match r3 with
            | ':' :: r4 =>
              (readDigits 2 r4).bind fun (ss, r5) =>
                (parseOffTail r5).map fun off => (hh, mi, ss, off)
            | _ => none
        | _ => none
    else none

/-- The field-extraction half of the `dateutil` model: digits and
separators, no range checking. -/
def pyDateutilParseRaw (s : Str) : Option PyDateTime :=
  (readDigits 4 s).bind fun (y, r1) =>
    match r1 with
    | '-' :: r2 =>
      (readDigits 2 r2).bind fun (mo, r3) =>
        match r3 with
        | '-' :: r4 =>
          (readDigits 2 r4).bind fun (d, r5) =>
            (parseTimeTail r5).map fun (hh, mi, ss, off) => ⟨y, mo, d, hh, mi, ss, off⟩
        | _ => none
    | _ => none

/-- Model of `dateutil.parser.parse` on the ISO-8601 shapes the indexed
timestamps take: `YYYY-MM-DD`, optionally followed by `THH:MM:SS` or
` HH:MM:SS`, optionally followed by `±HH:MM`, with the fields in the
ranges `dateutil` accepts.  A string with no offset parses to a NAIVE
datetime, exactly as `dateutil` behaves; any other shape is a parse
failure (`None` here, an exception in Python). -/
def pyDateutilParse (s : Str) : Option PyDateTime :=
  match pyDateutilParseRaw s with
  | some t => if validDt t then some t else none
  | none => none


/-- The raw values `parse_timestamp` receives from the index metadata:
`None`, a string, or an already-structured `datetime`. -/
inductive TsInput where
  | pyNone
  | pyStr (s : Str)
  | pyDt (d : PyDateTime)
deriving DecidableEq

/-- Python truthiness test `not ts` for those values (`datetime`s are
always truthy). -/
def tsFalsy : TsInput → Bool
  | .pyNone => true
  | .pyStr s => s.isEmpty
  | .pyDt _ => false

/-- Python `str(ts).replace("Z", "+00:00")`: every `Z` becomes `+00:00`. -/
def replaceZ (s : Str) : Str :=
  s.flatMap fun c => if c == 'Z' then "+00:00".toList else [c]

/-- The function `parse_timestamp` (`retriever.py` lines 41-51). -/
def parse_timestamp (v : TsInput) : PyDateTime :=
  if tsFalsy v then dtSentinel
  else
    match v with
    | .pyNone => dtSentinel
    | .pyDt d => if d.tzOffMin.isSome then d else { d with tzOffMin := some 0 }
    | .pyStr s =>
      match pyDateutilParse (replaceZ s) with
      | some d => d
      | none => dtSentinel


/-!
The Chroma collection and `retrieve_relevant_messages`
(`retriever.py` lines 142-268).  The embedding model is opaque: the
pipeline is parameterized by the element type `E` of embeddings, the
query encoder `encode`, the distance `dist` (Chroma's cosine distance,
lower = more similar) and the centroid `meanE` (`np.mean(..., axis=0)`).
`collection.query` returns, PER QUERY EMBEDDING, one inner list of
documents / metadatas / distances sorted by ascending distance; with a
single query embedding the outer lists are singletons — `[[]]`, not
`[]`, when the filter matches nothing.
-/

/-- Stable insertion of `x` into `l`: before the first element `y` with
`le x y`. -/
def insertLe {α : Type} (le : α → α → Bool) (x : α) : List α → List α
  | [] => [x]
  | y :: ys => if le x y then x :: y :: ys else y :: insertLe le x ys

/-- Stable sort by the boolean total preorder `le`.  Python's
`list.sort` is a stable sort; a stable sort's output is determined by
the comparison (for a total preorder) and the input order, so this
models `list.sort(key=...)` (and the ascending-distance order of a
Chroma query result) exactly. -/
def insSort {α : Type} (le : α → α → Bool) : List α → List α
  | [] => []
  | x :: xs => insertLe le x (insSort le xs)

/-- Metadata stored per indexed entry by `build_index`
(`retriever.py` lines 71-78): `user_name`, `user_id` and the raw
(possibly `None`) message timestamp. -/
structure MetaRec where
  user_name : Str
  user_id : Str
  timestamp : Option Str
deriving DecidableEq

/-- One indexed entry of the Chroma collection: document text, metadata
and stored embedding. -/
structure Entry (E : Type) where
  doc : Str
  meta : MetaRec
  emb : E

/-- The shape `collection.query` returns (the fields the code reads). -/
structure QueryResult where
  documents : List (List Str)
  metadatas : List (List MetaRec)
  distances : List (List ℚ)

/-- Model of `collection.query(query_embeddings=[qemb], n_results=n, where=flt)`:
filter by the optional `user_name` equality clause, order by ascending
distance to the query embedding, take `n`, and wrap every field in a
singleton outer list (one inner list per query embedding). -/
def collectionQuery {E : Type} (dist : E → E → ℚ) (store : List (Entry E))
    (qemb : E) (n : Nat) (flt : Option Str) : QueryResult :=
  let cands : List (Entry E) := match flt with
    | some un => store.filter fun e => e.meta.user_name == un
    | none => store
  let top : List (Entry E) :=
    (insSort (fun a b => decide (dist qemb a.emb ≤ dist qemb b.emb)) cands).take n
  ⟨[top.map (·.doc)], [top.map (·.meta)], [top.map fun e => dist qemb e.emb]⟩

/-- A combined result item built in step 5 of the pipeline
(`retriever.py` lines 221-232). -/
structure Item where
  text : Str
  user_name : Str
  user_id : Str
  timestamp : PyDateTime
  score : ℚ
deriving DecidableEq

/-- Step 5: `zip(docs, metas, scores)` (truncating to the shortest,
as `zip` does) with timestamps normalized by `parse_timestamp`. -/
def assembleItems (docs : List Str) (metas : List MetaRec) (scores : List ℚ) : List Item :=
  (docs.zip (metas.zip scores)).map fun dms =>
    { text := dms.1
      user_name := dms.2.1.user_name
      user_id := dms.2.1.user_id
      timestamp := parse_timestamp
        (match dms.2.1.timestamp with
         | some ts => .pyStr ts
         | none => .pyNone)
      score := dms.2.2 }

/-- Step 6: deduplication by exact text with a `seen` set, keeping the
first occurrence (`retriever.py` lines 238-243). -/
def dedupAux : List Str → List Item → List Item
  | _, [] => []
  | seen, c :: rest =>
    if seen.contains c.text then dedupAux seen rest
    else c :: dedupAux (c.text :: seen) rest

def dedupByText (l : List Item) : List Item := dedupAux [] l

/-- Step 7's comparison: ascending in the Python key
`(-item.timestamp.timestamp(), item.score)` (`retriever.py` line 249),
i.e. newest first, ascending distance among timestamp ties. -/
def sortKeyLe (a b : Item) : Bool :=
  decide (tsKeySec b.timestamp < tsKeySec a.timestamp ∨
    (tsKeySec a.timestamp = tsKeySec b.timestamp ∧ a.score ≤ b.score))

/-- Python truthiness of the `user_name` argument (`None` and the empty
string are falsy).  The three guards that read `user_name`
(`retriever.py` lines 157, 163, 254) all test truthiness, so a falsy
value behaves exactly like `None` everywhere. -/
def truthyName : Option Str → Bool
  | none => false
  | some u => !u.isEmpty

/-- Step 8 (`retriever.py` lines 253-255): when a user was detected,
keep only items whose `user_name` equals it. -/
def postFilter (un : Option Str) (l : List Item) : List Item :=
  match un with
  | some u => l.filter fun it => it.user_name == u
  | none => l

/-- The function `retrieve_relevant_messages` (`retriever.py` lines 142-268). -/
def retrieve_relevant_messages {E : Type} (encode : Str → E) (dist : E → E → ℚ)
    (meanE : List E → E) (store : List (Entry E))
    (question : Str) (top_k : Nat) (user_name : Option Str) : List Item :=
  let un : Option Str := if truthyName user_name then user_name else none
  -- step 1: the query text is "<user>: <question>" when a user was detected
  let qText : Str := match un with
    | some u => u ++ (':' :: ' ' :: question)
    | none => question
  let qEmb := encode qText
  -- step 2: primary search, restricted to the user when one was detected
  let primary := collectionQuery dist store qEmb (top_k * 3) un
  -- step 3: `if not results.get("documents")` — the OUTER list's truthiness
  let results := if primary.documents.isEmpty
    then collectionQuery dist store qEmb (top_k * 3) none
    else primary
  let docs0 := results.documents.headD []
  let metas0 := results.metadatas.headD []
  let scores0 := results.distances.headD []
  -- step 4: centroid expansion when more than one document came back
  let expanded :=
    if 1 < docs0.length then
      let centroid := meanE ((docs0.take (min docs0.length 12)).map encode)
      let ex := collectionQuery dist store centroid top_k un
      (docs0 ++ ex.documents.headD [], metas0 ++ ex.metadatas.headD [],
       scores0 ++ ex.distances.headD [])
    else (docs0, metas0, scores0)
  -- steps 5-7: combine, deduplicate, sort
  let sorted := insSort sortKeyLe (dedupByText (assembleItems expanded.1 expanded.2.1 expanded.2.2))
  -- step 8: post-filter to the detected user
  -- final truncation: `unique[:10]`
  (postFilter un sorted).take 10

/-!
Spec-side reference definitions, used only in theorem statements, and
concrete fixtures for witnesses and counterexamples.
-/

/-- Reference recursion for "keep the first occurrence of every text":
keep the head, drop every later item with the same text, recurse. -/
def keepFirstByText : List Item → List Item
  | [] => []
  | c :: rest => c :: keepFirstByText (rest.filter fun d => !(d.text == c.text))
termination_by l => l.length
decreasing_by
  simp only [List.length_cons]
  exact Nat.lt_succ_of_le (List.length_filter_le _ _)

/-- The truth value of `re.search(rf"\b{p}\b", q)`, reading a raised
`re.error` as "no match" (used only to describe names already known to
produce well-formed patterns). -/
def reOkB (p q : Str) : Bool :=
  match reSearchWB p q with
  | .ok b => b
  | .error _ => false

/-- The literal tier's test for a single name: raw case-insensitive
substring, or some whitespace-separated part of the normalized name
matching the normalized question as a whole word. -/
def tier1MatchB (nfkd : Str → Str) (u q : Str) : Bool :=
  containsSub (lowerStr u) (lowerStr q) ||
    (splitWs (normalize_text nfkd u)).any fun p => reOkB p (normalize_text nfkd q)

/-- The fuzzy score of a name as claim C6 describes it: the maximum
partial-ratio over the candidate strings, namely the full normalized
name plus each of its space-separated parts. -/
def candScore (nfkd : Str → Str) (nq u : Str) : Score :=
  ((normalize_text nfkd u :: splitWs (normalize_text nfkd u)).map fun cand =>
    alignSim cand nq).foldr scoreMax ⟨0, 1⟩

/-- The identity stands in for `unicodedata.normalize("NFKD", ·)` in
concrete witnesses: NFKD is the identity on the ASCII strings they
use. -/
def idNfkd : Str → Str := fun s => s

/-- Trivial embedding space for concrete retrieval runs: the claims
under test hold for every embedding model, so witnesses may fix a
degenerate one. -/
def unitEncode : Str → Unit := fun _ => ()

def unitDist : Unit → Unit → ℚ := fun _ _ => 0

def unitMean : List Unit → Unit := fun _ => ()

def aliceName : Str := "Alice Smith".toList

/-- Twelve indexed messages by Alice Smith with pairwise distinct
texts and no timestamps. -/
def storeAlice : List (Entry Unit) :=
  (List.range 12).map fun i =>
    ⟨[Char.ofNat (65 + i)], ⟨aliceName, "u1".toList, none⟩, ()⟩

/-- Two indexed messages by Bob Lee only. -/
def storeBob : List (Entry Unit) :=
  [⟨"m1".toList, ⟨"Bob Lee".toList, "u2".toList, none⟩, ()⟩,
   ⟨"m2".toList, ⟨"Bob Lee".toList, "u2".toList, none⟩, ()⟩]

/-!
### Generic lemmas

Exact fraction comparison algebra, the stable insertion sort, and the
deduplication recursion.
-/

theorem not_scoreLt_iff {a b : Score} : scoreLt a b = false ↔ scoreLe b a = true := by
  simp only [scoreLt, scoreLe, decide_eq_false_iff_not, decide_eq_true_eq, Nat.not_lt]

theorem scoreLt_trans {a b c : Score}
    (h1 : scoreLt a b = true) (h2 : scoreLt b c = true) : scoreLt a c = true := by
  simp only [scoreLt, decide_eq_true_eq] at h1 h2 ⊢
  have had : 0 < a.den := by
    rcases Nat.eq_zero_or_pos a.den with h | h
    · rw [h, Nat.mul_zero] at h1; omega
    · exact h
  rcases Nat.eq_zero_or_pos c.den with hc | hc
  · rw [hc, Nat.mul_zero] at h2 ⊢
    have : 0 < c.num := by
      rcases Nat.eq_zero_or_pos c.num with h | h
      · rw [h, Nat.zero_mul] at h2; omega
      · exact h
    exact Nat.mul_pos this had
  · have s1 : a.num * b.den * c.den < b.num * a.den * c.den :=
      Nat.mul_lt_mul_of_lt_of_le h1 (Nat.le_refl c.den) hc
    have s2 : b.num * c.den * a.den < c.num * b.den * a.den :=
      Nat.mul_lt_mul_of_lt_of_le h2 (Nat.le_refl a.den) had
    have e1 : b.num * a.den * c.den = b.num * c.den * a.den := by ring
    have key : a.num * c.den * b.den < c.num * a.den * b.den := by
      have e2 : a.num * c.den * b.den = a.num * b.den * c.den := by ring
      have e3 : c.num * a.den * b.den = c.num * b.den * a.den := by ring
      rw [e2, e3]
      exact Nat.lt_trans (e1 ▸ s1) s2
    exact Nat.lt_of_mul_lt_mul_right key

theorem scoreLt_of_le_of_lt {a b c : Score} (ha : 0 < a.den)
    (h1 : scoreLe a b = true) (h2 : scoreLt b c = true) : scoreLt a c = true := by
  simp only [scoreLt, scoreLe, decide_eq_true_eq] at h1 h2 ⊢
  rcases Nat.eq_zero_or_pos c.den with hc | hc
  · rw [hc, Nat.mul_zero] at h2 ⊢
    have : 0 < c.num := by
      rcases Nat.eq_zero_or_pos c.num with h | h
      · rw [h, Nat.zero_mul] at h2; omega
      · exact h
    exact Nat.mul_pos this ha
  · have s1 : a.num * b.den * c.den ≤ b.num * a.den * c.den :=
      Nat.mul_le_mul_right c.den h1
    have s2 : b.num * c.den * a.den < c.num * b.den * a.den :=
      Nat.mul_lt_mul_of_lt_of_le h2 (Nat.le_refl a.den) ha
    have key : a.num * c.den * b.den < c.num * a.den * b.den := by
      have e1 : a.num * c.den * b.den = a.num * b.den * c.den := by ring
      have e2 : b.num * a.den * c.den = b.num * c.den * a.den := by ring
      have e3 : c.num * a.den * b.den = c.num * b.den * a.den := by ring
      rw [e1, e3]
      exact Nat.lt_of_le_of_lt (e2 ▸ s1) s2
    exact Nat.lt_of_mul_lt_mul_right key

theorem mem_insertLe {α : Type} (le : α → α → Bool) (x : α) (l : List α) (a : α) :
    a ∈ insertLe le x l ↔ a = x ∨ a ∈ l := by
  induction l with
  | nil => simp [insertLe]
  | cons y ys ih =>
    simp only [insertLe]
    split
    · simp [List.mem_cons]
    · simp only [List.mem_cons, ih]
      tauto

theorem insertLe_perm {α : Type} (le : α → α → Bool) (x : α) (l : List α) :
    List.Perm (insertLe le x l) (x :: l) := by
  induction l with
  | nil => exact List.Perm.refl _
  | cons y ys ih =>
    simp only [insertLe]
    split
    · exact List.Perm.refl _
    · exact (ih.cons y).trans (List.Perm.swap x y ys)

theorem insSort_perm {α : Type} (le : α → α → Bool) (l : List α) :
    List.Perm (insSort le l) l := by
  induction l with
  | nil => exact List.Perm.refl _
  | cons x xs ih => exact (insertLe_perm le x (insSort le xs)).trans (ih.cons x)

theorem pairwise_insertLe {α : Type} {le : α → α → Bool}
    (htot : ∀ a b, le a b = true ∨ le b a = true)
    (htrans : ∀ a b c, le a b = true → le b c = true → le a c = true)
    (x : α) {l : List α} (hl : l.Pairwise (le · ·)) :
    (insertLe le x l).Pairwise (le · ·) := by
  induction l with
  | nil => simp [insertLe]
  | cons y ys ih =>
    rcases List.pairwise_cons.1 hl with ⟨hy, hys⟩
    simp only [insertLe]
    split
    case isTrue h =>
      refine List.pairwise_cons.2 ⟨?_, hl⟩
      intro a ha
      rcases List.mem_cons.1 ha with rfl | ha
      · exact h
      · exact htrans x y a h (hy a ha)
    case isFalse h =>
      refine List.pairwise_cons.2 ⟨?_, ih hys⟩
      intro a ha
      rcases (mem_insertLe le x ys a).1 ha with rfl | ha
      · rcases htot y a with hya | hay
        · exact hya
        · exact absurd hay h
      · exact hy a ha

theorem pairwise_insSort {α : Type} {le : α → α → Bool}
    (htot : ∀ a b, le a b = true ∨ le b a = true)
    (htrans : ∀ a b c, le a b = true → le b c = true → le a c = true)
    (l : List α) : (insSort le l).Pairwise (le · ·) := by
  induction l with
  | nil => simp [insSort]
  | cons x xs ih => exact pairwise_insertLe htot htrans x ih

theorem dedupAux_eq_keepFirst :
    ∀ (l : List Item) (seen : List Str),
      dedupAux seen l = keepFirstByText (l.filter fun c => !(seen.contains c.text)) := by
  intro l
  induction l with
  | nil => intro seen; simp [dedupAux, keepFirstByText]
  | cons c rest ih =>
    intro seen
    by_cases h : seen.contains c.text = true
    · simp only [dedupAux, h, if_true, List.filter_cons, Bool.not_true, Bool.false_eq_true,
        if_false, ih seen]
    · have hb : seen.contains c.text = false := by
        cases hx : seen.contains c.text
        · rfl
        · exact absurd hx h
      have hf : (rest.filter fun d => !(seen.contains d.text)).filter
            (fun d => !(d.text == c.text)) =
          rest.filter fun d => !((c.text :: seen).contains d.text) := by
        rw [List.filter_filter]
        apply List.filter_congr
        intro d _
        simp only [List.contains_cons, Bool.not_or]
      simp only [dedupAux, hb, Bool.false_eq_true, if_false, List.filter_cons, Bool.not_false,
        if_true, keepFirstByText, hf, ih (c.text :: seen)]

theorem dedupAux_pairwise :
    ∀ (l : List Item) (seen : List Str),
      (dedupAux seen l).Pairwise (fun a b => a.text ≠ b.text) ∧
        ∀ a ∈ dedupAux seen l, seen.contains a.text = false := by
  intro l
  induction l with
  | nil => intro seen; simp [dedupAux]
  | cons c rest ih =>
    intro seen
    by_cases h : seen.contains c.text = true
    · simpa only [dedupAux, h, if_true] using ih seen
    · have hb : seen.contains c.text = false := by
        cases hx : seen.contains c.text
        · rfl
        · exact absurd hx h
      obtain ⟨hp, hs⟩ := ih (c.text :: seen)
      simp only [dedupAux, hb, Bool.false_eq_true, if_false]
      refine ⟨List.pairwise_cons.2 ⟨?_, hp⟩, ?_⟩
      · intro a ha
        have := hs a ha
        simp only [List.contains_cons, Bool.or_eq_false_iff, beq_eq_false_iff_ne] at this
        exact fun he => this.1 (he ▸ rfl)
      · intro a ha
        rcases List.mem_cons.1 ha with rfl | ha
        · exact hb
        · have := hs a ha
          simp only [List.contains_cons, Bool.or_eq_false_iff] at this
          exact this.2

theorem sortKeyLe_total : ∀ a b : Item, sortKeyLe a b = true ∨ sortKeyLe b a = true := by
  intro a b
  simp only [sortKeyLe, decide_eq_true_eq]
  rcases lt_trichotomy (tsKeySec a.timestamp) (tsKeySec b.timestamp) with h | h | h
  · right; exact Or.inl h
  · rcases le_total a.score b.score with hs | hs
    · exact Or.inl (Or.inr ⟨h, hs⟩)
    · right; exact Or.inr ⟨h.symm, hs⟩
  · exact Or.inl (Or.inl h)

theorem sortKeyLe_trans :
    ∀ a b c : Item, sortKeyLe a b = true → sortKeyLe b c = true → sortKeyLe a c = true := by
  intro a b c h1 h2
  simp only [sortKeyLe, decide_eq_true_eq] at h1 h2 ⊢
  rcases h1 with h1 | ⟨h1e, h1s⟩ <;> rcases h2 with h2 | ⟨h2e, h2s⟩
  · exact Or.inl (by omega)
  · exact Or.inl (by omega)
  · exact Or.inl (by omega)
  · exact Or.inr ⟨by omega, le_trans h1s h2s⟩

/-- The tail of the pipeline (sort, optional user filter, `[:10]`),
factored over the deduplicated list `l`: output sorted newest-first
with ascending score among ties. -/
theorem pipelineTail_pairwise (un : Option Str) (l : List Item) :
    ((postFilter un (insSort sortKeyLe l)).take 10).Pairwise
      (fun a b => tsKeySec b.timestamp ≤ tsKeySec a.timestamp ∧
        (tsKeySec a.timestamp = tsKeySec b.timestamp → a.score ≤ b.score)) := by
  have hs : (insSort sortKeyLe l).Pairwise
      (fun a b => tsKeySec b.timestamp ≤ tsKeySec a.timestamp ∧
        (tsKeySec a.timestamp = tsKeySec b.timestamp → a.score ≤ b.score)) := by
    refine (pairwise_insSort sortKeyLe_total sortKeyLe_trans l).imp ?_
    intro a b hab
    simp only [sortKeyLe, decide_eq_true_eq] at hab
    refine ⟨?_, ?_⟩
    · rcases hab with h | ⟨he, _⟩ <;> omega
    · intro he
      rcases hab with h | ⟨_, hsc⟩
      · exact ((by omega : False)).elim
      · exact hsc
  cases un with
  | none => exact hs.sublist (List.take_sublist _ _)
  | some u => exact ((hs.filter _).sublist (List.take_sublist _ _) : _)

/-- The tail of the pipeline keeps texts pairwise distinct once the
deduplication stage made them so. -/
theorem pipelineTail_textNe (un : Option Str) (m : List Item) :
    ((postFilter un (insSort sortKeyLe (dedupByText m))).take 10).Pairwise
      (fun a b => a.text ≠ b.text) := by
  have hd : (dedupByText m).Pairwise (fun a b => a.text ≠ b.text) :=
    (dedupAux_pairwise m []).1
  have hs : (insSort sortKeyLe (dedupByText m)).Pairwise (fun a b => a.text ≠ b.text) :=
    ((insSort_perm sortKeyLe (dedupByText m)).pairwise_iff fun h => h.symm).2 hd
  cases un with
  | none => exact hs.sublist (List.take_sublist _ _)
  | some u => exact ((hs.filter _).sublist (List.take_sublist _ _) : _)

/-- The tail of the pipeline after the user filter contains only items
of that user. -/
theorem pipelineTail_userFiltered (u : Str) (l : List Item) :
    (((postFilter (some u) (insSort sortKeyLe l)).take 10).all
      fun it => it.user_name == u) = true := by
  rw [List.all_eq_true]
  intro x hx
  exact (List.mem_filter.1 (List.take_subset _ _ hx)).2

/-!
### Claim theorems
-/

/-- C1, counterexample: with `top_k = 5` against an index of twelve
distinct Alice messages, the call returns 10 items — more than
`top_k`.  (`unique[:10]` at `retriever.py` line 257 caps at the
constant 10, not at `top_k`.) -/
theorem c1_topk_counterexample :
    (retrieve_relevant_messages unitEncode unitDist unitMean storeAlice
      "what did alice say".toList 5 (some aliceName)).length = 10 ∧ 5 < 10 := by
  constructor
  · decide
  · decide

/-- C1 (amended): the returned list has length at most 10, a fixed
cap independent of `top_k`; `top_k` only sizes the candidate pools
(`top_k * 3` primary, `top_k` expansion). -/
theorem c1_length_le_ten {E : Type} (encode : Str → E) (dist : E → E → ℚ)
    (meanE : List E → E) (store : List (Entry E)) (question : Str)
    (top_k : Nat) (user_name : Option Str) :
    (retrieve_relevant_messages encode dist meanE store question top_k user_name).length ≤ 10 :=
  List.length_take_le _ _

/-- C2 (code bug): Chroma's `query` always returns one inner list per
query embedding, so `results["documents"]` is `[[]]` — truthy — even
when the user filter matched nothing; the guard
`if not results.get("documents")` (`retriever.py` line 181) therefore
never fires.  Concretely: Alice has no indexed messages in a store of
Bob messages, the primary filtered query returns zero documents, the
fallback condition is still false, and the call returns `[]` without
ever repeating the query unfiltered.  The last conjunct shows the
condition is false for every query against every store. -/
theorem c2_fallback_never_fires :
    (collectionQuery unitDist storeBob () 15 (some aliceName)).documents = [[]] ∧
    (collectionQuery unitDist storeBob () 15 (some aliceName)).documents.isEmpty = false ∧
    retrieve_relevant_messages unitEncode unitDist unitMean storeBob
      "what did alice say".toList 5 (some aliceName) = [] ∧
    ∀ (E : Type) (dist : E → E → ℚ) (store : List (Entry E)) (qemb : E)
      (n : Nat) (flt : Option Str),
      (collectionQuery dist store qemb n flt).documents.isEmpty = false := by
  refine ⟨by decide, by decide, by decide, ?_⟩
  intro E dist store qemb n flt
  rfl

/-- C3: the returned list is sorted by normalized timestamp,
non-increasing (newest first); among equal timestamps the distance
score is non-decreasing. -/
theorem c3_sorted_newest_first {E : Type} (encode : Str → E) (dist : E → E → ℚ)
    (meanE : List E → E) (store : List (Entry E)) (question : Str)
    (top_k : Nat) (user_name : Option Str) :
    (retrieve_relevant_messages encode dist meanE store question top_k user_name).Pairwise
      (fun a b => tsKeySec b.timestamp ≤ tsKeySec a.timestamp ∧
        (tsKeySec a.timestamp = tsKeySec b.timestamp → a.score ≤ b.score)) :=
  pipelineTail_pairwise _ _

/-- C4, counterexample: the post-filter guard is `if user_name:`, and
Python's empty string is falsy, so a detected user that is the empty
string disables the filter: against a store of Bob messages the call
with `user_name = ""` returns a non-empty list in which no item's
`user_name` equals the detected user. -/
theorem c4_empty_user_counterexample :
    ((retrieve_relevant_messages unitEncode unitDist unitMean storeBob
      "hello".toList 5 (some ([] : Str))).all fun it => it.user_name == ([] : Str)) = false ∧
    retrieve_relevant_messages unitEncode unitDist unitMean storeBob
      "hello".toList 5 (some ([] : Str)) ≠ [] := by
  constructor
  · decide
  · decide

/-- C4 (amended): when the detected user's name is truthy (non-`None`
and non-empty), every returned item's `user_name` equals it. -/
theorem c4_user_filter {E : Type} (encode : Str → E) (dist : E → E → ℚ)
    (meanE : List E → E) (store : List (Entry E)) (question : Str)
    (top_k : Nat) (u : Str) (hne : u ≠ []) :
    ((retrieve_relevant_messages encode dist meanE store question top_k (some u)).all
      fun it => it.user_name == u) = true := by
  rcases u with _ | ⟨c, us⟩
  · exact absurd rfl hne
  · exact pipelineTail_userFiltered _ _

/-- Witness for `c4_user_filter` at a concrete store and user. -/
theorem c4_user_filter_witness :
    ((retrieve_relevant_messages unitEncode unitDist unitMean storeBob
      "what did bob say".toList 5 (some "Bob Lee".toList)).all
      fun it => it.user_name == "Bob Lee".toList) = true :=
  c4_user_filter unitEncode unitDist unitMean storeBob
    "what did bob say".toList 5 "Bob Lee".toList (by decide)

/-- C5: the returned list never contains two items with identical
text, and the deduplication stage keeps exactly the first occurrence
of every text in the merged primary-then-expansion order (the
`keepFirstByText` recursion). -/
theorem c5_dedup_text :
    (∀ (E : Type) (encode : Str → E) (dist : E → E → ℚ) (meanE : List E → E)
      (store : List (Entry E)) (question : Str) (top_k : Nat) (user_name : Option Str),
      (retrieve_relevant_messages encode dist meanE store question top_k user_name).Pairwise
        fun a b => a.text ≠ b.text) ∧
    ∀ l : List Item, dedupByText l = keepFirstByText l := by
  constructor
  · intro E encode dist meanE store question top_k user_name
    exact pipelineTail_textNe _ _
  · intro l
    have h := dedupAux_eq_keepFirst l []
    have hf : (l.filter fun c => !(([] : List Str).contains c.text)) = l := by
      simp
    rw [hf] at h
    exact h

theorem pyDateutilParse_valid {s : Str} {t : PyDateTime}
    (h : pyDateutilParse s = some t) : validDt t = true := by
  unfold pyDateutilParse at h
  split at h
  · split at h
    · cases h
      assumption
    · exact absurd h (by simp)
  · exact absurd h (by simp)

/-- The sentinel `datetime.min.replace(tzinfo=utc)` sorts strictly
before (i.e. as older than) any datetime `dateutil` produces from a
string with year at least 2. -/
theorem sentinel_key_lt {t : PyDateTime} (hv : validDt t = true) (hy : 2 ≤ t.year) :
    tsKeySec dtSentinel < tsKeySec t := by
  have hsent : tsKeySec dtSentinel = -62135596800 := by decide
  rw [hsent]
  simp only [validDt, Bool.and_eq_true, decide_eq_true_eq] at hv
  obtain ⟨⟨⟨⟨⟨⟨⟨⟨⟨hy1, hy2⟩, hm1⟩, hm2⟩, hd1⟩, hd2⟩, hh⟩, hmi⟩, hs⟩, hoff⟩ := hv
  rcases hto : t.tzOffMin with _ | off
  · rw [hto] at hoff
    simp only [tsKeySec, daysFromCivil, hto, Option.getD_none]
    by_cases hm : t.month ≤ 2
    · rw [if_pos hm, if_neg (show ¬ 2 < t.month by omega)]
      omega
    · rw [if_neg hm, if_pos (show 2 < t.month by omega)]
      omega
  · rw [hto] at hoff
    have hoff' : -1439 ≤ off ∧ off ≤ 1439 := by simpa using hoff
    obtain ⟨ho1, ho2⟩ := hoff'
    simp only [tsKeySec, daysFromCivil, hto, Option.getD_some]
    by_cases hm : t.month ≤ 2
    · rw [if_pos hm, if_neg (show ¬ 2 < t.month by omega)]
      omega
    · rw [if_neg hm, if_pos (show 2 < t.month by omega)]
      omega

/-- C7, counterexample: a string timestamp with no UTC offset parses
successfully and is returned as a NAIVE datetime (`dateutil` attaches
no timezone, and `parse_timestamp` passes its result through), so
`parse_timestamp` does not always return a timezone-aware value. -/
theorem c7_naive_counterexample :
    parse_timestamp (.pyStr "2023-01-05 10:00:00".toList) =
      ⟨2023, 1, 5, 10, 0, 0, none⟩ ∧
    (parse_timestamp (.pyStr "2023-01-05 10:00:00".toList)).tzOffMin = none := by
  constructor
  · decide
  · decide

/-- C7 (amended): `parse_timestamp` never raises (it is total);
`None`/empty input and any parse failure yield the UTC-aware
`datetime.min` sentinel; `datetime` inputs always come out aware (UTC
is attached to naive ones); a successfully parsed string comes out
exactly as `dateutil` produced it — timezone-aware if and only if the
string carried an offset (every `"Z"` having first been rewritten to
`"+00:00"`) — and the sentinel sorts strictly older than any parsed
timestamp with year ≥ 2. -/
theorem c7_parse_timestamp_amended :
    (∀ v : TsInput, tsFalsy v = true → parse_timestamp v = dtSentinel) ∧
    (∀ d : PyDateTime, (parse_timestamp (.pyDt d)).tzOffMin.isSome = true) ∧
    (∀ s : Str, s ≠ [] → pyDateutilParse (replaceZ s) = none →
      parse_timestamp (.pyStr s) = dtSentinel) ∧
    (∀ (s : Str) (d : PyDateTime), s ≠ [] → pyDateutilParse (replaceZ s) = some d →
      parse_timestamp (.pyStr s) = d) ∧
    dtSentinel.tzOffMin = some 0 ∧
    (∀ (s : Str) (d : PyDateTime), pyDateutilParse s = some d → 2 ≤ d.year →
      tsKeySec dtSentinel < tsKeySec d) := by
  refine ⟨?_, ?_, ?_, ?_, rfl, ?_⟩
  · intro v hv
    simp [parse_timestamp, hv]
  · intro d
    simp only [parse_timestamp, tsFalsy, Bool.false_eq_true, if_false]
    rcases h : d.tzOffMin with _ | off
    · simp [h]
    · simp [h]
  · intro s hs hp
    have hf : tsFalsy (.pyStr s) = false := by
      simp [tsFalsy, List.isEmpty_iff, hs]
    simp [parse_timestamp, hf, hp]
  · intro s d hs hp
    have hf : tsFalsy (.pyStr s) = false := by
      simp [tsFalsy, List.isEmpty_iff, hs]
    simp [parse_timestamp, hf, hp]
  · intro s d hp hy
    exact sentinel_key_lt (pyDateutilParse_valid hp) hy

/-- Witness for `c7_parse_timestamp_amended`: a concrete `"Z"`-suffixed
string parses to an aware UTC datetime. -/
theorem c7_parse_timestamp_witness :
    parse_timestamp (.pyStr "2023-01-05T10:00:00Z".toList) =
      ⟨2023, 1, 5, 10, 0, 0, some 0⟩ :=
  c7_parse_timestamp_amended.2.2.2.1 "2023-01-05T10:00:00Z".toList
    ⟨2023, 1, 5, 10, 0, 0, some 0⟩ (by decide) (by decide)

theorem scoreLt_irrefl (a : Score) : scoreLt a a = false := by
  simp [scoreLt]

theorem scoreLt_of_lt_of_le {a b c : Score} (hc : 0 < c.den)
    (h1 : scoreLt a b = true) (h2 : scoreLe b c = true) : scoreLt a c = true := by
  simp only [scoreLt, scoreLe, decide_eq_true_eq] at h1 h2 ⊢
  have had : 0 < a.den := by
    rcases Nat.eq_zero_or_pos a.den with h | h
    · rw [h, Nat.mul_zero] at h1; omega
    · exact h
  have s1 : a.num * b.den * c.den < b.num * a.den * c.den :=
    Nat.mul_lt_mul_of_lt_of_le h1 (Nat.le_refl c.den) hc
  have s2 : b.num * c.den * a.den ≤ c.num * b.den * a.den :=
    Nat.mul_le_mul_right a.den h2
  have key : a.num * c.den * b.den < c.num * a.den * b.den := by
    have e1 : a.num * c.den * b.den = a.num * b.den * c.den := by ring
    have e2 : b.num * a.den * c.den = b.num * c.den * a.den := by ring
    have e3 : c.num * a.den * b.den = c.num * b.den * a.den := by ring
    rw [e1, e3]
    exact Nat.lt_of_lt_of_le (e2 ▸ s1) s2
  exact Nat.lt_of_mul_lt_mul_right key

theorem scoreMax_den_pos {a b : Score} (ha : 0 < a.den) (hb : 0 < b.den) :
    0 < (scoreMax a b).den := by
  unfold scoreMax
  split
  · exact hb
  · exact ha

theorem foldr_scoreMax_den_pos :
    ∀ (l : List Score) (init : Score), 0 < init.den → (∀ x ∈ l, 0 < x.den) →
      0 < (l.foldr scoreMax init).den := by
  intro l
  induction l with
  | nil => intro init h _; exact h
  | cons x xs ih =>
    intro init h hx
    exact scoreMax_den_pos (hx x (by simp)) (ih init h fun y hy => hx y (by simp [hy]))

theorem simRatio_den_pos (a b : Str) : 0 < (simRatio a b).den := by
  unfold simRatio
  split
  · exact Nat.one_pos
  · simp only []
    omega

theorem alignSim_den_pos (a b : Str) : 0 < (alignSim a b).den := by
  unfold alignSim
  apply foldr_scoreMax_den_pos
  · exact Nat.one_pos
  · intro x hx
    rcases List.mem_map.1 hx with ⟨t, _, rfl⟩
    exact simRatio_den_pos _ _

/-- What the fuzzy accumulator loop computes: its score never drops
below the start and dominates every name's score, and either nothing
improved on the start or the final pair belongs to the first name
attaining the run's maximum (so ties keep the first-seen name). -/
theorem fuzzyFold_char (f : Str → Score) (hf : ∀ u, 0 < (f u).den) :
    ∀ (names : List Str) (b : Score) (m : Option Str), 0 < b.den →
      0 < (fuzzyFold f (b, m) names).1.den ∧
      scoreLt (fuzzyFold f (b, m) names).1 b = false ∧
      (∀ u ∈ names, scoreLt (fuzzyFold f (b, m) names).1 (f u) = false) ∧
      (fuzzyFold f (b, m) names = (b, m) ∨
        ∃ l₁ u l₂, names = l₁ ++ u :: l₂ ∧
          (fuzzyFold f (b, m) names).1 = f u ∧
          (fuzzyFold f (b, m) names).2 = some u ∧
          scoreLt b (f u) = true ∧
          ∀ v ∈ l₁, scoreLt (f v) (f u) = true) := by
  intro names
  induction names with
  | nil =>
    intro b m hb
    exact ⟨hb, scoreLt_irrefl b, by simp, Or.inl rfl⟩
  | cons u rest ih =>
    intro b m hb
    by_cases h : scoreLt b (f u) = true
    · have hstep : fuzzyFold f (b, m) (u :: rest) = fuzzyFold f (f u, some u) rest := by
        simp [fuzzyFold, h]
      obtain ⟨ih1, ih2, ih3, ih4⟩ := ih (f u) (some u) (hf u)
      rw [hstep]
      refine ⟨ih1, ?_, ?_, ?_⟩
      · cases hx : scoreLt (fuzzyFold f (f u, some u) rest).1 b
        · rfl
        · exact absurd (scoreLt_trans hx h) (by simp [ih2])
      · intro v hv
        rcases List.mem_cons.1 hv with rfl | hv
        · exact ih2
        · exact ih3 v hv
      · rcases ih4 with heq | ⟨l₁, w, l₂, hsplit, h1, h2, h3, h4⟩
        · refine Or.inr ⟨[], u, rest, by simp, ?_, ?_, h, by simp⟩
          · rw [heq]
          · rw [heq]
        · refine Or.inr ⟨u :: l₁, w, l₂, by simp [hsplit], h1, h2,
            scoreLt_trans h h3, ?_⟩
          intro v hv
          rcases List.mem_cons.1 hv with rfl | hv
          · exact h3
          · exact h4 v hv
    · have hfalse : scoreLt b (f u) = false := by
        cases hx : scoreLt b (f u)
        · rfl
        · exact absurd hx h
      have hstep : fuzzyFold f (b, m) (u :: rest) = fuzzyFold f (b, m) rest := by
        simp [fuzzyFold, hfalse]
      obtain ⟨ih1, ih2, ih3, ih4⟩ := ih b m hb
      rw [hstep]
      refine ⟨ih1, ih2, ?_, ?_⟩
      · intro v hv
        rcases List.mem_cons.1 hv with rfl | hv
        · cases hx : scoreLt (fuzzyFold f (b, m) rest).1 (f v)
          · rfl
          · have hlt : scoreLt (fuzzyFold f (b, m) rest).1 b = true :=
              scoreLt_of_lt_of_le hb hx (not_scoreLt_iff.1 hfalse)
            exact absurd hlt (by simp [ih2])
        · exact ih3 v hv
      · rcases ih4 with heq | ⟨l₁, w, l₂, hsplit, h1, h2, h3, h4⟩
        · exact Or.inl heq
        · refine Or.inr ⟨u :: l₁, w, l₂, by simp [hsplit], h1, h2, h3, ?_⟩
          intro v hv
          rcases List.mem_cons.1 hv with rfl | hv
          · exact scoreLt_of_le_of_lt (hf v) (not_scoreLt_iff.1 hfalse) h3
          · exact h4 v hv

theorem lexPat_plusFree :
    ∀ p : Str, (∀ c ∈ p, c.toNat ≠ 43) → ∃ toks, lexPat p = some toks := by
  intro p
  induction p with
  | nil => intro _; exact ⟨[], rfl⟩
  | cons c rest ih =>
    intro h
    have hc : (c.toNat == 43) = false := by
      simp only [beq_eq_false_iff_ne, ne_eq]
      exact h c (by simp)
    rcases rest with _ | ⟨p1, rest1⟩
    · exact ⟨[ReTok.one c], by simp [lexPat, hc]⟩
    · have hp1 : (p1.toNat == 43) = false := by
        simp only [beq_eq_false_iff_ne, ne_eq]
        exact h p1 (by simp)
      have hrest : ∀ d ∈ p1 :: rest1, d.toNat ≠ 43 := fun d hd => h d (by simp [hd])
      obtain ⟨toks, htoks⟩ := ih hrest
      rcases rest1 with _ | ⟨p2, rest2⟩
      · exact ⟨[ReTok.one c, ReTok.one p1], by simp [lexPat, hc, hp1]⟩
      · exact ⟨ReTok.one c :: toks, by simp [lexPat, hc, hp1, htoks]⟩

theorem reSearchWB_plusFree {p : Str} (h : ∀ c ∈ p, c.toNat ≠ 43) (q : Str) :
    reSearchWB p q = .ok (reOkB p q) := by
  obtain ⟨toks, htoks⟩ := lexPat_plusFree p h
  simp [reSearchWB, reOkB, htoks]

theorem firstPartHit_plusFree :
    ∀ (parts : List Str) (nq : Str), (∀ p ∈ parts, ∀ c ∈ p, c.toNat ≠ 43) →
      firstPartHit parts nq = .ok (parts.any fun p => reOkB p nq) := by
  intro parts
  induction parts with
  | nil => intro nq _; rfl
  | cons p ps ih =>
    intro nq h
    have hp := reSearchWB_plusFree (h p (by simp)) nq
    have hps := ih nq fun d hd => h d (by simp [hd])
    cases hb : reOkB p nq
    · rw [hb] at hp
      simp [firstPartHit, hp, hps, hb]
    · rw [hb] at hp
      simp [firstPartHit, hp, hb]

theorem detectTier1_eq_find (nfkd : Str → Str) (q : Str) :
    ∀ names : List Str,
      (∀ u ∈ names, ∀ p ∈ splitWs (normalize_text nfkd u), ∀ c ∈ p, c.toNat ≠ 43) →
      detectTier1 nfkd q names = .ok (names.find? fun v => tier1MatchB nfkd v q) := by
  intro names
  induction names with
  | nil => intro _; rfl
  | cons u rest ih =>
    intro h
    have hrest := ih fun v hv => h v (by simp [hv])
    by_cases hsub : containsSub (lowerStr u) (lowerStr q) = true
    · simp [detectTier1, hsub, List.find?, tier1MatchB]
    · have hsub' : containsSub (lowerStr u) (lowerStr q) = false := by
        cases hx : containsSub (lowerStr u) (lowerStr q)
        · rfl
        · exact absurd hx hsub
      have hfp := firstPartHit_plusFree (splitWs (normalize_text nfkd u))
        (normalize_text nfkd q) (h u (by simp))
      cases hany : (splitWs (normalize_text nfkd u)).any
          fun p => reOkB p (normalize_text nfkd q)
      · rw [hany] at hfp
        simp [detectTier1, hsub', hfp, hrest, List.find?, tier1MatchB, hany]
      · rw [hany] at hfp
        simp [detectTier1, hsub', hfp, List.find?, tier1MatchB, hany]

theorem not_scoreLe_iff {a b : Score} : scoreLe a b = false ↔ scoreLt b a = true := by
  simp only [scoreLt, scoreLe, decide_eq_false_iff_not, decide_eq_true_eq, Nat.not_le]

/-- C6, counterexample: for the question "big zqa pen" and the single
known name "Wwwww Zq", the literal tier finds nothing, the
claim's candidate scoring (max over the full normalized name AND its
parts) reaches 100 ≥ 70 through the part "zq", yet the detector
returns no match — the code scores only the full normalized name
(`retriever.py` lines 126-128), which stays far below the
threshold. -/
theorem c6_no_part_candidates_counterexample :
    detect_user_name idNfkd "big zqa pen".toList ["Wwwww Zq".toList] ⟨70, 1⟩ = .ok none ∧
    detectTier1 idNfkd "big zqa pen".toList ["Wwwww Zq".toList] = .ok none ∧
    scoreLe ⟨70, 1⟩
      (candScore idNfkd (normalize_text idNfkd "big zqa pen".toList) "Wwwww Zq".toList) =
      true := by
  refine ⟨by decide, by decide, by decide⟩

/-- C6 (amended): when the literal tier finds nothing, the fuzzy tier
scores each name by the partial-ratio of its FULL normalized name only
(space-separated parts are not candidates); the detector returns no
match when every such score is below the threshold, and otherwise
returns the first name attaining the run's maximum score (ties keep
the first-seen name), whose score meets the threshold and is not
exceeded by any name. -/
theorem c6_fuzzy_full_name_only (nfkd : Str → Str) (q : Str) (names : List Str) (thr : Score)
    (hthr : scoreLt ⟨0, 1⟩ thr = true)
    (htier : detectTier1 nfkd q names = .ok none) :
    (detect_user_name nfkd q names thr = .ok none ∧
      ∀ u ∈ names,
        scoreLt (alignSim (normalize_text nfkd u) (normalize_text nfkd q)) thr = true) ∨
    (∃ l₁ u l₂, names = l₁ ++ u :: l₂ ∧
      detect_user_name nfkd q names thr = .ok (some u) ∧
      scoreLe thr (alignSim (normalize_text nfkd u) (normalize_text nfkd q)) = true ∧
      (∀ v ∈ names,
        scoreLt (alignSim (normalize_text nfkd u) (normalize_text nfkd q))
          (alignSim (normalize_text nfkd v) (normalize_text nfkd q)) = false) ∧
      ∀ v ∈ l₁,
        scoreLt (alignSim (normalize_text nfkd v) (normalize_text nfkd q))
          (alignSim (normalize_text nfkd u) (normalize_text nfkd q)) = true) := by
  have hdet : detect_user_name nfkd q names thr =
      .ok (detectFuzzy nfkd names (normalize_text nfkd q) thr) := by
    simp [detect_user_name, htier]
  obtain ⟨hden, hge0, hdom, hcase⟩ :=
    fuzzyFold_char (fun u => alignSim (normalize_text nfkd u) (normalize_text nfkd q))
      (fun u => alignSim_den_pos _ _) names ⟨0, 1⟩ none (by decide)
  rcases hcase with heq | ⟨l₁, u, l₂, hsplit, h1, h2, h3, h4⟩
  · left
    constructor
    · rw [hdet]
      simp only [detectFuzzy, heq]
      split <;> rfl
    · intro u hu
      have h0 := hdom u hu
      rw [heq] at h0
      exact scoreLt_of_le_of_lt (alignSim_den_pos _ _) (not_scoreLt_iff.1 h0) hthr
  · by_cases hth : scoreLe thr
        (alignSim (normalize_text nfkd u) (normalize_text nfkd q)) = true
    · right
      refine ⟨l₁, u, l₂, hsplit, ?_, hth, ?_, h4⟩
      · rw [hdet]
        simp only [detectFuzzy, h1, hth, if_true, h2]
      · intro v hv
        have := hdom v hv
        rw [h1] at this
        exact this
    · left
      have hth' : scoreLe thr
          (alignSim (normalize_text nfkd u) (normalize_text nfkd q)) = false := by
        cases hx : scoreLe thr (alignSim (normalize_text nfkd u) (normalize_text nfkd q))
        · rfl
        · exact absurd hx hth
      constructor
      · rw [hdet]
        simp only [detectFuzzy, h1, hth', Bool.false_eq_true, if_false]
      · intro v hv
        have hvu := hdom v hv
        rw [h1] at hvu
        exact scoreLt_of_le_of_lt (alignSim_den_pos _ _) (not_scoreLt_iff.1 hvu)
          (not_scoreLe_iff.1 hth')

set_option maxHeartbeats 2000000 in
/-- Witness for `c6_fuzzy_full_name_only`: "Bobb" fuzzily matches the
word "bobz" in the question above the threshold. -/
theorem c6_fuzzy_witness :
    detect_user_name idNfkd "tell bobz about it".toList ["Bobb".toList] ⟨70, 1⟩ =
      .ok (some "Bobb".toList) := by
  rcases c6_fuzzy_full_name_only idNfkd "tell bobz about it".toList ["Bobb".toList] ⟨70, 1⟩
      (by decide) (by decide) with ⟨_, hall⟩ | ⟨l₁, u, l₂, hsplit, hdet, _, _, _⟩
  · exact absurd (hall "Bobb".toList (by simp)) (by decide)
  · rcases l₁ with _ | ⟨x, xs⟩
    · rw [List.nil_append] at hsplit
      injection hsplit with hu hl
      rw [← hu] at hdet
      exact hdet
    · exfalso
      have := congrArg List.length hsplit
      simp at this

/-- C8, counterexample: "Charlie" is the only name occurring as an
exact case-insensitive substring of the question, but the detector
returns the earlier name "Alice Bob" — its part "alice" word-matches
first, because the per-name loop checks each name's parts before
moving to the next name. -/
theorem c8_substring_counterexample :
    detect_user_name idNfkd "alice went home with charlie".toList
      ["Alice Bob".toList, "Charlie".toList] ⟨70, 1⟩ = .ok (some "Alice Bob".toList) ∧
    containsSub (lowerStr "Charlie".toList)
      (lowerStr "alice went home with charlie".toList) = true ∧
    containsSub (lowerStr "Alice Bob".toList)
      (lowerStr "alice went home with charlie".toList) = false := by
  refine ⟨by decide, by decide, by decide⟩

/-- C8 (amended): if some name is an exact case-insensitive substring
of the raw question (and no name's parts contain `+`, so no pattern
raises first), the detector returns — for every threshold, i.e.
without the fuzzy tier's threshold logic — the FIRST name in input
order that passes the literal tier, where a name passes by exact
substring or by a whole-word part match; such a name exists. -/
theorem c8_literal_tier (nfkd : Str → Str) (q : Str) (names : List Str)
    (hplus : ∀ u ∈ names, ∀ p ∈ splitWs (normalize_text nfkd u), ∀ c ∈ p, c.toNat ≠ 43)
    (hsub : ∃ u ∈ names, containsSub (lowerStr u) (lowerStr q) = true) :
    ∀ thr : Score,
      detect_user_name nfkd q names thr = .ok (names.find? fun v => tier1MatchB nfkd v q) ∧
      (names.find? fun v => tier1MatchB nfkd v q).isSome = true := by
  intro thr
  have htier := detectTier1_eq_find nfkd q names hplus
  have hsome : (names.find? fun v => tier1MatchB nfkd v q).isSome = true := by
    rw [List.find?_isSome]
    obtain ⟨u, hu, hc⟩ := hsub
    exact ⟨u, hu, by simp [tier1MatchB, hc]⟩
  obtain ⟨u, hu⟩ := Option.isSome_iff_exists.1 hsome
  rw [hu] at htier
  exact ⟨by rw [hu]; simp [detect_user_name, htier], hsome⟩

/-- Witness for `c8_literal_tier` at a concrete question containing
the name. -/
theorem c8_literal_tier_witness :
    detect_user_name idNfkd "hi bob".toList ["Bob".toList] ⟨70, 1⟩ =
      .ok (some "Bob".toList) := by
  have h := (c8_literal_tier idNfkd "hi bob".toList ["Bob".toList] (by decide)
    ⟨"Bob".toList, by simp, by decide⟩ ⟨70, 1⟩).1
  rw [h]
  decide

/-- C10, counterexample: a name whose normalized form has a part
beginning with `+` (here "+1") makes the interpolated pattern `\b+1\b`
invalid — CPython's `re` raises "nothing to repeat" — and the
exception escapes `detect_user_name`. -/
theorem c10_plus_part_raises :
    detect_user_name idNfkd "hello world".toList ["+1 Fan".toList] ⟨70, 1⟩ = .error () := by
  decide

/-- C10 (amended): when no name's normalized parts contain `+` (the
only kept character the regex interpolation cannot escape),
`detect_user_name` terminates without raising and returns either one
of the given names or no match. -/
theorem c10_no_plus_total (nfkd : Str → Str) (q : Str) (names : List Str) (thr : Score)
    (hplus : ∀ u ∈ names, ∀ p ∈ splitWs (normalize_text nfkd u), ∀ c ∈ p, c.toNat ≠ 43) :
    ∃ o : Option Str, detect_user_name nfkd q names thr = .ok o ∧
      ∀ u, o = some u → u ∈ names := by
  have htier := detectTier1_eq_find nfkd q names hplus
  cases hfind : names.find? fun v => tier1MatchB nfkd v q with
  | some u =>
    rw [hfind] at htier
    refine ⟨some u, by simp [detect_user_name, htier], ?_⟩
    intro v hv
    cases hv
    exact List.mem_of_find?_eq_some hfind
  | none =>
    rw [hfind] at htier
    refine ⟨detectFuzzy nfkd names (normalize_text nfkd q) thr,
      by simp [detect_user_name, htier], ?_⟩
    intro u hu
    simp only [detectFuzzy] at hu
    obtain ⟨_, _, _, hcase⟩ :=
      fuzzyFold_char (fun v => alignSim (normalize_text nfkd v) (normalize_text nfkd q))
        (fun v => alignSim_den_pos _ _) names ⟨0, 1⟩ none (by decide)
    split at hu
    · rcases hcase with heq | ⟨l₁, w, l₂, hsplit, _, h2, _, _⟩
      · rw [heq] at hu
        exact absurd hu (by simp)
      · rw [h2] at hu
        cases hu
        rw [hsplit]
        simp
    · exact absurd hu (by simp)

/-- Witness for `c10_no_plus_total` at a concrete plus-free name
list. -/
theorem c10_no_plus_total_witness :
    ∃ o : Option Str,
      detect_user_name idNfkd "xyz".toList ["Bob".toList] ⟨70, 1⟩ = .ok o := by
  obtain ⟨o, ho, _⟩ :=
    c10_no_plus_total idNfkd "xyz".toList ["Bob".toList] ⟨70, 1⟩ (by decide)
  exact ⟨o, ho⟩

theorem collapseAux_chars :
    ∀ (s : Str) (b : Bool) (c : Char), c ∈ collapseAux b s → keptChar c = true := by
  intro s
  induction s with
  | nil => intro b c h; simp [collapseAux] at h
  | cons d cs ih =>
    intro b c h
    by_cases hd : keptChar d = true
    · rw [collapseAux, if_pos hd] at h
      rcases List.mem_cons.1 h with rfl | h
      · exact hd
      · exact ih false c h
    · rw [collapseAux, if_neg hd] at h
      by_cases hb : b = true
      · rw [if_pos hb] at h
        exact ih true c h
      · rw [if_neg hb] at h
        rcases List.mem_cons.1 h with rfl | h
        · decide
        · exact ih true c h

theorem lowerChar_out {c : Char} (h : keptChar c = true) :
    normalOutChar (lowerChar c) = true := by
  unfold lowerChar
  simp only [keptChar, Bool.or_eq_true, Bool.and_eq_true, decide_eq_true_eq, beq_iff_eq] at h
  by_cases hc : (65 ≤ c.toNat && c.toNat ≤ 90) = true
  · rw [if_pos hc]
    simp only [Bool.and_eq_true, decide_eq_true_eq] at hc
    have hv : (c.toNat + 32).isValidChar := Or.inl (by omega)
    have ht : (Char.ofNat (c.toNat + 32)).toNat = c.toNat + 32 := by
      simp [Char.ofNat, hv]
      rfl
    simp only [normalOutChar, keptChar, ht, Bool.or_eq_true, Bool.and_eq_true,
      decide_eq_true_eq, beq_iff_eq, Bool.not_eq_true', Bool.and_eq_false_iff,
      decide_eq_false_iff_not]
    omega
  · rw [if_neg hc]
    simp only [Bool.and_eq_true, decide_eq_true_eq, Classical.not_and_iff_or_not_not,
      Nat.not_le] at hc
    simp only [normalOutChar, keptChar, Bool.or_eq_true, Bool.and_eq_true,
      decide_eq_true_eq, beq_iff_eq, Bool.not_eq_true', Bool.and_eq_false_iff,
      decide_eq_false_iff_not]
    omega

theorem replaceQuotes_kept {s : Str} (h : ∀ c ∈ s, keptChar c = true) :
    replaceQuotes s = s := by
  unfold replaceQuotes
  have hmap : ∀ c ∈ s,
      (if (c.toNat == 8217 || c.toNat == 8216 || c.toNat == 96) = true
        then Char.ofNat 39 else c) = id c := by
    intro c hc
    have := h c hc
    simp only [keptChar, Bool.or_eq_true, Bool.and_eq_true, decide_eq_true_eq,
      beq_iff_eq] at this
    have hcond : (c.toNat == 8217 || c.toNat == 8216 || c.toNat == 96) = false := by
      simp only [Bool.or_eq_false_iff, beq_eq_false_iff_ne, ne_eq]
      omega
    rw [if_neg (by simp [hcond])]
    rfl
  rw [List.map_congr_left hmap, List.map_id]

theorem collapseAux_kept {s : Str} (h : ∀ c ∈ s, keptChar c = true) :
    collapseAux false s = s := by
  induction s with
  | nil => rfl
  | cons c cs ih =>
    rw [collapseAux, if_pos (h c (by simp))]
    rw [ih fun d hd => h d (by simp [hd])]

theorem lowerStr_out {s : Str} (h : ∀ c ∈ s, normalOutChar c = true) :
    lowerStr s = s := by
  unfold lowerStr
  have hmap : ∀ c ∈ s, lowerChar c = id c := by
    intro c hc
    have := h c hc
    simp only [normalOutChar, Bool.and_eq_true, Bool.not_eq_true', Bool.and_eq_false_iff,
      decide_eq_false_iff_not, Nat.not_le] at this
    unfold lowerChar
    rw [if_neg]
    · rfl
    · simp only [Bool.and_eq_true, decide_eq_true_eq]
      omega
  rw [List.map_congr_left hmap, List.map_id]

theorem dropWhile_eq_self_of_head {α : Type} (p : α → Bool) (l : List α)
    (h : ∀ a, l.head? = some a → p a = false) : l.dropWhile p = l := by
  cases l with
  | nil => rfl
  | cons x xs =>
    rw [List.dropWhile_cons, if_neg]
    simp [h x rfl]

theorem getLast?_dropWhile {α : Type} (p : α → Bool) :
    ∀ l : List α, l.dropWhile p = [] ∨ (l.dropWhile p).getLast? = l.getLast? := by
  intro l
  induction l with
  | nil => exact Or.inl rfl
  | cons x xs ih =>
    rw [List.dropWhile_cons]
    by_cases hx : p x = true
    · rw [if_pos hx]
      cases hd : xs.dropWhile p with
      | nil => exact Or.inl rfl
      | cons z zs =>
        right
        rw [← hd]
        rcases ih with h | h
        · rw [h] at hd
          cases hd
        · rw [h]
          cases hxs : xs with
          | nil =>
            rw [hxs] at hd
            simp at hd
          | cons y ys => simp [List.getLast?_cons_cons]
    · rw [if_neg hx]
      exact Or.inr rfl

theorem mem_stripSpaces {s : Str} {c : Char} (h : c ∈ stripSpaces s) : c ∈ s := by
  unfold stripSpaces at h
  rw [List.mem_reverse] at h
  have h1 := (List.dropWhile_sublist (· == ' ')).subset h
  rw [List.mem_reverse] at h1
  exact (List.dropWhile_sublist (· == ' ')).subset h1

theorem stripSpaces_fixed (s : Str) : stripSpaces (stripSpaces s) = stripSpaces s := by
  cases hV : (s.dropWhile (· == ' ')).reverse.dropWhile (· == ' ') with
  | nil =>
    have hy : stripSpaces s = [] := by
      unfold stripSpaces
      rw [hV]
      rfl
    rw [hy]
    rfl
  | cons z zs =>
    have hy : stripSpaces s = (z :: zs).reverse := by
      unfold stripSpaces
      rw [hV]
    cases hU : s.dropWhile (· == ' ') with
    | nil =>
      rw [hU] at hV
      simp at hV
    | cons u us =>
      have hpu : (u == ' ') = false := by
        have hm := List.head?_dropWhile_not (· == ' ') s
        rw [hU] at hm
        exact hm
      have hpz : (z == ' ') = false := by
        have hm := List.head?_dropWhile_not (· == ' ') (s.dropWhile (· == ' ')).reverse
        rw [hV] at hm
        exact hm
      have hVlast : (z :: zs).getLast? = some u := by
        rcases getLast?_dropWhile (· == ' ') (s.dropWhile (· == ' ')).reverse with h | h
        · rw [hV] at h
          cases h
        · rw [hV] at h
          rw [h, List.getLast?_reverse, hU]
          rfl
      have h1 : ((z :: zs).reverse).dropWhile (· == ' ') = (z :: zs).reverse := by
        apply dropWhile_eq_self_of_head
        intro a ha
        rw [List.head?_reverse, hVlast] at ha
        injection ha with ha
        rw [← ha]
        exact hpu
      have h2 : (z :: zs).dropWhile (· == ' ') = z :: zs := by
        apply dropWhile_eq_self_of_head
        intro a ha
        simp only [List.head?_cons] at ha
        injection ha with ha
        rw [← ha]
        exact hpz
      rw [hy]
      unfold stripSpaces
      rw [h1, List.reverse_reverse, h2]

theorem normalize_chars (nfkd : Str → Str) (t : Str) :
    ∀ c ∈ normalize_text nfkd t, normalOutChar c = true := by
  intro c hc
  unfold normalize_text at hc
  have hc1 : c ∈ lowerStr (collapseRuns (replaceQuotes (nfkd t))) := mem_stripSpaces hc
  rcases List.mem_map.1 hc1 with ⟨d, hd, rfl⟩
  exact lowerChar_out (collapseAux_chars _ false d hd)

/-- C9: `normalize_text` is idempotent.  The NFKD transform is
quantified over, assumed only to fix strings already in
`normalize_text`'s output alphabet (lowercase ASCII kept characters) —
a property of the real Unicode NFKD. -/
theorem c9_normalize_idem (nfkd : Str → Str)
    (hn : ∀ s : Str, (∀ c ∈ s, normalOutChar c = true) → nfkd s = s) (t : Str) :
    normalize_text nfkd (normalize_text nfkd t) = normalize_text nfkd t := by
  have hy := normalize_chars nfkd t
  have hkept : ∀ c ∈ normalize_text nfkd t, keptChar c = true := by
    intro c hc
    have := hy c hc
    simp only [normalOutChar, Bool.and_eq_true] at this
    exact this.1
  have hexp : normalize_text nfkd (normalize_text nfkd t) =
      stripSpaces (lowerStr (collapseRuns (replaceQuotes (nfkd (normalize_text nfkd t))))) :=
    rfl
  rw [hexp, hn _ hy, replaceQuotes_kept hkept,
    show collapseRuns (normalize_text nfkd t) = collapseAux false (normalize_text nfkd t)
      from rfl,
    collapseAux_kept hkept, lowerStr_out hy]
  exact stripSpaces_fixed (lowerStr (collapseRuns (replaceQuotes (nfkd t))))

/-- Witness for `c9_normalize_idem`: the identity discharges the NFKD
hypothesis, at a concrete messy input. -/
theorem c9_normalize_idem_witness :
    normalize_text idNfkd
        (normalize_text idNfkd "  What did Thiago’s C++ team say?  ".toList) =
      normalize_text idNfkd "  What did Thiago’s C++ team say?  ".toList :=
  c9_normalize_idem idNfkd (fun _ _ => rfl) "  What did Thiago’s C++ team say?  ".toList
